import Mathlib

/-!
Verification of the ensemble training orchestrator in `ensenble_train.py`.

The Python source is shallowly embedded: tensors and the model/loss
collaborators are opaque, so a batch is represented by the data the
orchestrator actually consumes from it (per-sample true labels, per-sample
predicted labels, the scalar loss value of the batch, and the raw inputs
only through their count); all real-valued quantities are modelled as `ℚ`.
Definitions keep the source names where Lean allows it; line numbers in the
doc comments refer to `ensenble_train.py`.
-/

/-- One batch as consumed by the train/val loops of `train`
(`ensenble_train.py` lines 240-260 and 292-306): `labels` are the ground
truth labels of the batch, `preds` the argmax predictions of the model on
it, `loss` the value of `criterion(outs, labels).item()`, and `inputs` the
image tensors of the batch (only their number is ever inspected by the
embedded code, via `np_images.shape[0]`). -/
structure Batch where
  inputs : List ℚ
  labels : List ℕ
  preds  : List ℕ
  loss   : ℚ
deriving DecidableEq

/-- `(labels == preds).sum().item()` (lines 259 and 304): the number of
positions where prediction and label agree. -/
def accItem (b : Batch) : ℕ :=
  (b.labels.zip b.preds).countP (fun x => x.1 == x.2)

/-! ## Macro F1 (`sklearn.metrics.f1_score(..., average='macro')`)

`f1_score` is called at lines 273 and 317 with the *predicted* labels as
first argument and the *true* labels as second.  The model below follows
sklearn's macro-averaged F1: the class set is the union of the labels
occurring in either argument, per-class F1 is `2*TP / (2*TP + FP + FN)`,
and the macro score is the unweighted mean over the class set.  The first
parameter `t` plays the role of sklearn's `y_true` position, `p` of its
`y_pred` position. -/

/-- True positives of class `c`: pairs where both sequences carry `c`. -/
def tpCount (t p : List ℕ) (c : ℕ) : ℕ :=
  (t.zip p).countP (fun x => x.1 == c && x.2 == c)

/-- False positives of class `c`: predicted `c` while the truth is not `c`. -/
def fpCount (t p : List ℕ) (c : ℕ) : ℕ :=
  (t.zip p).countP (fun x => !(x.1 == c) && x.2 == c)

/-- False negatives of class `c`: truth is `c` while the prediction is not. -/
def fnCount (t p : List ℕ) (c : ℕ) : ℕ :=
  (t.zip p).countP (fun x => x.1 == c && !(x.2 == c))

/-- Per-class F1 score `2*TP / (2*TP + FP + FN)`. -/
def f1ClassScore (t p : List ℕ) (c : ℕ) : ℚ :=
  (2 * tpCount t p c : ℚ) / ((2 * tpCount t p c + fpCount t p c + fnCount t p c : ℕ) : ℚ)

/-- The class set sklearn averages over: every label present in either
sequence. -/
def classLabels (t p : List ℕ) : Finset ℕ := (t ++ p).toFinset

/-- `f1_score(t, p, average='macro')`. -/
def f1_score (t p : List ℕ) : ℚ :=
  (∑ c in classLabels t p, f1ClassScore t p c) / ((classLabels t p).card : ℚ)

lemma classLabels_comm (t p : List ℕ) : classLabels p t = classLabels t p := by
  simp [classLabels, List.toFinset_append, Finset.union_comm]

lemma tpCount_comm (t p : List ℕ) (c : ℕ) : tpCount p t c = tpCount t p c := by
  unfold tpCount
  rw [← List.zip_swap t p, List.countP_map]
  apply List.countP_congr
  intro x _
  simp [Function.comp, Prod.swap, Bool.and_comm]

lemma fpCount_swap (t p : List ℕ) (c : ℕ) : fpCount p t c = fnCount t p c := by
  unfold fpCount fnCount
  rw [← List.zip_swap t p, List.countP_map]
  apply List.countP_congr
  intro x _
  simp [Function.comp, Prod.swap, Bool.and_comm]

lemma fnCount_swap (t p : List ℕ) (c : ℕ) : fnCount p t c = fpCount t p c := by
  unfold fpCount fnCount
  rw [← List.zip_swap t p, List.countP_map]
  apply List.countP_congr
  intro x _
  simp [Function.comp, Prod.swap, Bool.and_comm]

lemma f1ClassScore_comm (t p : List ℕ) (c : ℕ) :
    f1ClassScore p t c = f1ClassScore t p c := by
  unfold f1ClassScore
  rw [tpCount_comm t p, fpCount_swap t p, fnCount_swap t p]
  have h : 2 * tpCount t p c + fnCount t p c + fpCount t p c
      = 2 * tpCount t p c + fpCount t p c + fnCount t p c := by omega
  rw [h]

/-- C10: the epoch F1 computation (lines 273 and 317) calls `f1_score` with
the predicted labels first and the true labels second; macro-averaged F1 is
symmetric under exchanging the two equal-length label sequences, so the
reported value `f1_score y_pred y_true` equals the conventional
`f1_score y_true y_pred`. -/
theorem f1_score_swap_args (y_true y_pred : List ℕ)
    (hlen : y_true.length = y_pred.length) :
    f1_score y_pred y_true = f1_score y_true y_pred := by
  unfold f1_score
  rw [classLabels_comm]
  congr 1
  apply Finset.sum_congr rfl
  intro c _
  exact f1ClassScore_comm y_true y_pred c

/-- Witness for C10 at a concrete pair of equal-length label lists. -/
theorem f1_score_swap_args_witness :
    ([0, 1, 2] : List ℕ).length = ([1, 1, 2] : List ℕ).length ∧
      f1_score [1, 1, 2] [0, 1, 2] = f1_score [0, 1, 2] [1, 1, 2] :=
  ⟨by decide, f1_score_swap_args [0, 1, 2] [1, 1, 2] (by decide)⟩

/-! ## Best-state tracking and checkpointing (lines 214-216 and 319-328)

Per slot the source keeps `best_val_accs[i]`, `best_val_losses[i]`,
`best_f1_scores[i]`, initialized to `0`, `np.inf` and `0` (lines 214-216).
The entry `i` of each array is read and written only while slot `i` is being
processed, so each slot's best-state evolves by the per-epoch fold below,
independently of the other slots.  `np.inf` is modelled by `⊤ : WithTop ℚ`. -/

/-- The per-epoch validation result of one slot consumed by the checkpoint
step: `val_acc`, `val_loss`, `val_f1` of lines 315-317. -/
structure EpochVal where
  val_acc : ℚ
  val_loss : ℚ
  val_f1 : ℚ
deriving DecidableEq

/-- The tracked best-state of one slot. -/
structure BestState where
  best_val_acc : ℚ
  best_val_loss : WithTop ℚ
  best_f1_score : ℚ

/-- Initialization of lines 214-216: accuracy `0`, loss `np.inf`, F1 `0`. -/
def initBest : BestState := ⟨0, ⊤, 0⟩

/-- One epoch of lines 319-328 for one slot.  Returns the updated best-state
together with two flags: whether the "best" snapshot was written this epoch
(`torch.save` at line 325, guarded by `f1 > best_f1_score` at line 323) and
whether the "last" snapshot was written (`torch.save` at line 328,
unconditional). -/
def bestUpdate (st : BestState) (r : EpochVal) : BestState × Bool × Bool :=
  let acc := max st.best_val_acc r.val_acc
  let vloss := min st.best_val_loss (r.val_loss : WithTop ℚ)
  if st.best_f1_score < r.val_f1 then
    (⟨acc, vloss, r.val_f1⟩, true, true)
  else
    (⟨acc, vloss, st.best_f1_score⟩, false, true)

/-- Folding `bestUpdate` over the epochs of one slot, recording each epoch's
state and write flags. -/
def checkpointSteps (st : BestState) : List EpochVal → List (BestState × Bool × Bool)
  | [] => []
  | r :: rs => bestUpdate st r :: checkpointSteps (bestUpdate st r).1 rs

/-- Per-epoch "best checkpoint written" flags of a slot's run. -/
def writeFlags (rs : List EpochVal) : List Bool :=
  (checkpointSteps initBest rs).map (fun u => u.2.1)

/-- Per-epoch "last checkpoint written" flags of a slot's run. -/
def lastFlags (rs : List EpochVal) : List Bool :=
  (checkpointSteps initBest rs).map (fun u => u.2.2)

/-- The 1-indexed epochs at which the "best" checkpoint is overwritten. -/
def writeEpochs (rs : List EpochVal) : List ℕ :=
  ((List.range rs.length).filter (fun k => (writeFlags rs).getD k false)).map (fun k => k + 1)

/-- The successive best-states of one slot, starting from `initBest`. -/
def statesList (rs : List EpochVal) : List BestState :=
  initBest :: (checkpointSteps initBest rs).map (fun u => u.1)

/-- Componentwise evolution order of a slot's best-state: accuracy and F1
may only grow, loss may only shrink. -/
def bestLe (a b : BestState) : Prop :=
  a.best_val_acc ≤ b.best_val_acc ∧ b.best_val_loss ≤ a.best_val_loss ∧
    a.best_f1_score ≤ b.best_f1_score

/-- The spec's F1 sequence `[0.1, 0.3, 0.2, 0.5, 0.5, 0.4]` (accuracy and
loss values are irrelevant to the best-F1 gating and set to `0`). -/
def c1Seq : List EpochVal :=
  [⟨0, 0, mkRat 1 10⟩, ⟨0, 0, mkRat 3 10⟩, ⟨0, 0, mkRat 2 10⟩,
   ⟨0, 0, mkRat 5 10⟩, ⟨0, 0, mkRat 5 10⟩, ⟨0, 0, mkRat 4 10⟩]

lemma bestUpdate_state (st : BestState) (r : EpochVal) :
    (bestUpdate st r).1 =
      ⟨max st.best_val_acc r.val_acc, min st.best_val_loss (r.val_loss : WithTop ℚ),
        max st.best_f1_score r.val_f1⟩ := by
  by_cases h : st.best_f1_score < r.val_f1
  · simp [bestUpdate, h, max_eq_right (le_of_lt h)]
  · simp [bestUpdate, h, max_eq_left (not_lt.mp h)]

lemma bestUpdate_flag (st : BestState) (r : EpochVal) :
    (bestUpdate st r).2.1 = decide (st.best_f1_score < r.val_f1) := by
  by_cases h : st.best_f1_score < r.val_f1 <;> simp [bestUpdate, h]

lemma bestUpdate_last (st : BestState) (r : EpochVal) :
    (bestUpdate st r).2.2 = true := by
  by_cases h : st.best_f1_score < r.val_f1 <;> simp [bestUpdate, h]

lemma bestLe_trans {a b c : BestState} (h1 : bestLe a b) (h2 : bestLe b c) :
    bestLe a c :=
  ⟨h1.1.trans h2.1, h2.2.1.trans h1.2.1, h1.2.2.trans h2.2.2⟩

lemma bestUpdate_le (st : BestState) (r : EpochVal) : bestLe st (bestUpdate st r).1 := by
  rw [bestUpdate_state]
  exact ⟨le_max_left _ _, min_le_left _ _, le_max_left _ _⟩

lemma writeFlags_from_char (rs : List EpochVal) (st : BestState) (k : ℕ) :
    ((checkpointSteps st rs).map (fun u => u.2.1))[k]? =
      (rs[k]?).map
        (fun r => decide (((rs.take k).map EpochVal.val_f1).foldl max st.best_f1_score < r.val_f1)) := by
  induction rs generalizing st k with
  | nil => simp [checkpointSteps]
  | cons r rs ih =>
    cases k with
    | zero => simp [checkpointSteps, bestUpdate_flag]
    | succ k =>
      have hf1 : (bestUpdate st r).1.best_f1_score = max st.best_f1_score r.val_f1 := by
        rw [bestUpdate_state]
      simp only [checkpointSteps, List.map_cons, List.getElem?_cons_succ,
        List.take_succ_cons, List.foldl_cons, ← hf1]
      exact ih (bestUpdate st r).1 k

lemma lastFlags_from_all (rs : List EpochVal) (st : BestState) :
    (checkpointSteps st rs).map (fun u => u.2.2) = List.replicate rs.length true := by
  induction rs generalizing st with
  | nil => simp [checkpointSteps]
  | cons r rs ih =>
    simp [checkpointSteps, bestUpdate_last, ih, List.replicate_succ]

lemma pairwise_checkpoint (rs : List EpochVal) (st : BestState) :
    List.Pairwise bestLe (st :: (checkpointSteps st rs).map (fun u => u.1)) := by
  induction rs generalizing st with
  | nil => simp [checkpointSteps]
  | cons r rs ih =>
    have h := ih (bestUpdate st r).1
    simp only [checkpointSteps, List.map_cons]
    rw [List.pairwise_cons]
    refine ⟨?_, h⟩
    intro b hb
    rcases List.mem_cons.mp hb with h1 | h2
    · rw [h1]; exact bestUpdate_le st r
    · exact bestLe_trans (bestUpdate_le st r) ((List.pairwise_cons.mp h).1 b h2)

/-- C1 (amended): the checkpoint step of lines 319-328 writes the "best"
snapshot in epoch `k` exactly when that epoch's `val_f1` strictly exceeds
the running maximum of the earlier F1 values (initialized to `0`, so ties
never overwrite and `best_f1_so_far` is the running maximum, updated on
write), and writes the "last" snapshot unconditionally every epoch; on the
spec's F1 sequence `[0.1, 0.3, 0.2, 0.5, 0.5, 0.4]` the "best" checkpoint is
therefore overwritten exactly at the 1-indexed epochs 1, 2 and 4 (not 1 and
4 as the claim literally states), while "last" is written all 6 epochs. -/
theorem checkpoint_best_gating :
    (∀ (rs : List EpochVal) (k : ℕ),
        (writeFlags rs)[k]? =
          (rs[k]?).map
            (fun r => decide (((rs.take k).map EpochVal.val_f1).foldl max 0 < r.val_f1)))
    ∧ (∀ rs : List EpochVal, lastFlags rs = List.replicate rs.length true)
    ∧ writeEpochs c1Seq = [1, 2, 4] := by
  refine ⟨fun rs k => ?_, fun rs => lastFlags_from_all rs initBest, by decide⟩
  have h := writeFlags_from_char rs initBest k
  simpa [writeFlags, initBest] using h

/-- C1 counterexample: on the F1 sequence `[0.1, 0.3, 0.2, 0.5, 0.5, 0.4]`
the "best" checkpoint is overwritten at epochs 1, 2 and 4 (1-indexed), not
exactly at epochs 1 and 4 as the claim states: epoch 2 (`0.3 > 0.1`) also
writes. -/
theorem checkpoint_best_epochs_counterexample :
    writeEpochs c1Seq = [1, 2, 4] ∧ writeEpochs c1Seq ≠ [1, 4] := by
  constructor <;> decide

/-- C2: for every slot and every sequence of per-epoch validation results,
the tracked `best_val_accs[i]` and `best_f1_scores[i]` are non-decreasing
and `best_val_losses[i]` is non-increasing across epochs, starting from the
initialization `(0, +∞, 0)` of lines 214-216: the successive best-states of
a slot's run are pairwise ordered by `bestLe`. -/
theorem best_state_monotone (rs : List EpochVal) :
    List.Pairwise bestLe (statesList rs) :=
  pairwise_checkpoint rs initBest

/-! ## Early stopping and the orchestrator loop (lines 217-343)

The outer loop is `for epoch in range(args.epochs): for i in range(5): ...`
with, per slot, the train loop, the validation loop, the checkpoint step
and finally `early_stop = EarlyStopping()(val_loss, models[i])` followed by
`if early_stop: break` (lines 340-343).  Note that the `break` leaves the
inner `for i in range(5)` loop, and that a *fresh* `EarlyStopping` object is
constructed on every call. -/

/-- Modelled from the spec: `early_stopping.py` is not under `src/`, so the
`EarlyStopping` monitor is modelled from §4.5 of the spec: it "internally
tracks the best validation loss seen and a counter of consecutive
non-improving epochs; exceeding a patience threshold signals stop". -/
structure EarlyStopping where
  best_loss : Option ℚ
  counter : ℕ
  patience : ℕ

/-- Modelled from the spec: a freshly constructed monitor has seen no loss
and has an empty non-improvement streak. -/
def EarlyStopping.new (patience : ℕ) : EarlyStopping := ⟨none, 0, patience⟩

/-- Modelled from the spec: `observe(val_loss, model) -> should_stop`.  An
improving loss resets the streak; a non-improving epoch increments it, and
the monitor signals stop once the streak exceeds the patience threshold. -/
def EarlyStopping.observe (es : EarlyStopping) (valLoss : ℚ) : EarlyStopping × Bool :=
  match es.best_loss with
  | none => (⟨some valLoss, 0, es.patience⟩, false)
  | some b =>
    if valLoss < b then (⟨some valLoss, 0, es.patience⟩, false)
    else (⟨some b, es.counter + 1, es.patience⟩, decide (es.patience < es.counter + 1))

/-- The stop signal the source actually computes at line 340: a *fresh*
monitor is built by `EarlyStopping()` on every call and immediately asked
about this epoch's validation loss. -/
def freshStopSignal (patience : ℕ) (vLoss : ℕ → ℕ → ℚ) (e i : ℕ) : Bool :=
  ((EarlyStopping.new patience).observe (vLoss e i)).2

/-- The per-epoch stop flags of one monitor instance kept alive across a
slot's epochs (the contract of spec §4.5). -/
def persistentRun (es : EarlyStopping) : List ℚ → List Bool
  | [] => []
  | l :: ls => (es.observe l).2 :: persistentRun (es.observe l).1 ls

/-- The four phases executed for one slot in one epoch, in source order:
train loop (lines 230-279), validation loop (lines 282-338), checkpoint
step (lines 319-328, inside the validation block) and the early-stop check
(lines 340-343). -/
inductive Phase where
  | train
  | validate
  | checkpoint
  | earlyCheck
deriving DecidableEq

/-- One event of the orchestrator's trace: epoch index, slot index, phase. -/
structure Ev where
  epoch : ℕ
  slot : ℕ
  phase : Phase
deriving DecidableEq

/-- The events one slot generates in one epoch, in order. -/
def slotSteps (e i : ℕ) : List Ev :=
  [⟨e, i, Phase.train⟩, ⟨e, i, Phase.validate⟩, ⟨e, i, Phase.checkpoint⟩,
   ⟨e, i, Phase.earlyCheck⟩]

/-- The inner `for i in range(5)` loop over the remaining slot indices:
after a slot's four phases, a true stop signal `break`s out of the slot
loop (line 343), skipping the remaining slots of the *current* epoch. -/
def slotLoopList (stopSig : ℕ → ℕ → Bool) (e : ℕ) : List ℕ → List Ev
  | [] => []
  | i :: rest =>
    slotSteps e i ++ (if stopSig e i then [] else slotLoopList stopSig e rest)

/-- One epoch of the orchestrator: slots `0..4` in fixed order. -/
def epochTrace (stopSig : ℕ → ℕ → Bool) (e : ℕ) : List Ev :=
  slotLoopList stopSig e (List.range 5)

/-- The full run: epochs `0..E-1`, each processing the slot loop. -/
def runTrace (E : ℕ) (stopSig : ℕ → ℕ → Bool) : List Ev :=
  (List.range E).flatMap (epochTrace stopSig)

lemma observe_new_false (patience : ℕ) (l : ℚ) :
    ((EarlyStopping.new patience).observe l).2 = false := rfl

lemma slotLoopList_no_stop (stopSig : ℕ → ℕ → Bool) (e : ℕ) (l : List ℕ)
    (h : ∀ i, stopSig e i = false) :
    slotLoopList stopSig e l = l.flatMap (fun i => slotSteps e i) := by
  induction l with
  | nil => rfl
  | cons i rest ih => simp [slotLoopList, h i, ih]

/-- C4: with the stop signal the source computes (a fresh `EarlyStopping`
per call, which can never have accumulated a non-improvement streak), every
run's trace iterates epochs `0..E-1`, within each epoch the five slots
`0..4` in fixed order, and within each slot the phases train, validate,
checkpoint, early-stop-check in that order; the epoch index advances only
after all five slots completed. -/
theorem epoch_slot_order (E patience : ℕ) (vLoss : ℕ → ℕ → ℚ) :
    runTrace E (freshStopSignal patience vLoss) =
      (List.range E).flatMap (fun e => (List.range 5).flatMap (fun i => slotSteps e i)) := by
  have h : epochTrace (freshStopSignal patience vLoss)
      = fun e => (List.range 5).flatMap (fun i => slotSteps e i) :=
    funext fun e =>
      slotLoopList_no_stop _ e (List.range 5) (fun i => observe_new_false patience _)
  rw [runTrace, h]

/-- C3 is false of the code (code bug): with patience 1 and a constant
validation-loss sequence `[1,1,1,1,1,1]` for slot 2, a persistent per-slot
monitor (the spec §4.5 contract) signals stop at epoch 3 (1-indexed) and
keeps signalling; but the source constructs a fresh `EarlyStopping` at line
340 on every call, whose signal is always `false`, so slot 2 keeps
receiving train calls through the last epoch (epoch index 5).  Moreover,
even when a stop signal does fire, the `break` at line 343 only skips the
remaining slots of the current epoch: with a signal firing at epoch 2, slot
2, the epoch-2 trace stops after slot 2 (slots 3 and 4 get no calls that
epoch) and the "stopped" slot 2 is trained again at epoch 3. -/
theorem early_stop_isolation_bug :
    persistentRun (EarlyStopping.new 1) [1, 1, 1, 1, 1, 1]
        = [false, false, true, true, true, true]
    ∧ (∀ e i, freshStopSignal 1 (fun _ _ => 1) e i = false)
    ∧ Ev.mk 5 2 Phase.train ∈ runTrace 6 (freshStopSignal 1 (fun _ _ => 1))
    ∧ epochTrace (fun e i => decide (e = 2 ∧ i = 2)) 2
        = slotSteps 2 0 ++ slotSteps 2 1 ++ slotSteps 2 2
    ∧ Ev.mk 3 2 Phase.train ∈ runTrace 6 (fun e i => decide (e = 2 ∧ i = 2)) :=
  ⟨by decide, fun e i => rfl, by decide, by decide, by decide⟩

/-! ## Drop-last batching and the accuracy denominators (C5)

Both loaders are built with `drop_last=True` (lines 132-148), and the epoch
accuracies divide by `batch_size * len(loader)` (line 272 for training,
line 316 for validation). -/

/-- Modelled from the spec: the batch-iterator collaborator
(`torch.utils.data.DataLoader` with `drop_last=True`, lines 132-148) honors
a "drop incomplete trailing batch" policy: `n` samples with batch size `b`
yield the `n / b` full consecutive chunks of size `b`, discarding the
trailing `n % b` samples. -/
def dropLastBatches {α : Type} (xs : List α) (b : ℕ) : List (List α) :=
  (List.range (xs.length / b)).map (fun k => (xs.drop (k * b)).take b)

/-- `len(loader)` under drop-last: the number of full batches. -/
def numBatches (n b : ℕ) : ℕ := n / b

/-- Line 272: `train_acc = matches / (args.batch_size * len(train_loaders[i]))`. -/
def train_acc (m bs numB : ℕ) : ℚ := (m : ℚ) / ((bs : ℚ) * (numB : ℚ))

/-- Line 316: `val_acc = np.sum(val_acc_items) / (args.valid_batch_size * len(val_loaders[i]))`. -/
def val_acc (s vbs numB : ℕ) : ℚ := (s : ℚ) / ((vbs : ℚ) * (numB : ℚ))

/-- End-of-epoch training metrics of lines 271-273:
`(train_loss, train_acc, f1)`.  The F1 call at line 273 passes `y_pred`
first and `y_true` second. -/
def train_metrics (bs : ℕ) (batches : List Batch) : ℚ × ℚ × ℚ :=
  ((batches.map Batch.loss).sum / (batches.length : ℚ),
   train_acc ((batches.map accItem).sum) bs batches.length,
   f1_score (batches.flatMap Batch.preds) (batches.flatMap Batch.labels))

/-! ## `grid_image` and the validation loop (C7, C9)

`grid_image` (lines 40-69) asserts `n <= batch_size` before selecting the
samples to draw.  The validator calls it inline on the first validation
batch with `n=16` (lines 308-313). -/

/-- The visualization artifact: the batch positions selected for drawing
(the per-position titles and the pyplot state are irrelevant to every
claim). -/
structure Figure where
  choices : List ℕ
deriving DecidableEq

/-- `grid_image` (lines 40-69): `batch_size = np_images.shape[0]`; the
`assert n <= batch_size` (line 42) is modelled by returning `none` (a
raised `AssertionError`); on success the selected positions are
`list(range(n))` (the `shuffle` branch instead draws `n` in-range positions
from `random.choices`, which also always succeeds once the assert passed;
the RNG is irrelevant to every claim, so the deterministic branch is used).
`gts` and `preds` are consumed only to render titles. -/
def grid_image (np_images : List ℚ) (gts preds : List ℕ) (n : ℕ) : Option Figure :=
  if n ≤ np_images.length then some ⟨List.range n⟩ else none

/-- The aggregation state the validation loop accumulates (lines 287-313):
per-batch loss items and correct-counts, the concatenated true/predicted
labels, and the (at most once computed) figure. -/
structure ValAgg where
  val_loss_items : List ℚ
  val_acc_items : List ℕ
  y_true : List ℕ
  y_pred : List ℕ
  figure : Option Figure
deriving DecidableEq

/-- The validation loop over the batches (lines 292-313).  On a batch with
`figure` still unset, `grid_image` is invoked inline (lines 308-313); its
failure propagates and aborts the whole loop (`none`).  The per-batch
appends commute with the inline figure computation, so the successful
result is aggregated after the recursive call. -/
def valScan : Option Figure → List Batch → Option ValAgg
  | fig, [] => some ⟨[], [], [], [], fig⟩
  | fig, b :: rest =>
    match (match fig with
           | some f => some f
           | none => grid_image b.inputs b.labels b.preds 16) with
    | none => none
    | some f =>
      match valScan (some f) rest with
      | none => none
      | some agg =>
        some ⟨b.loss :: agg.val_loss_items, accItem b :: agg.val_acc_items,
              b.labels ++ agg.y_true, b.preds ++ agg.y_pred, agg.figure⟩

/-- The validation epoch (lines 284-317): runs the loop and finalizes
`(val_loss, val_acc, val_f1)` (lines 315-317; F1 gets `y_pred` first).
`none` means the epoch aborted before the metrics were finalized. -/
def val_metrics (vbs : ℕ) (batches : List Batch) : Option (ℚ × ℚ × ℚ) :=
  match valScan none batches with
  | none => none
  | some agg =>
      some (agg.val_loss_items.sum / (batches.length : ℚ),
            val_acc agg.val_acc_items.sum vbs batches.length,
            f1_score agg.y_pred agg.y_true)

lemma valScan_some_isSome (rest : List Batch) : ∀ f : Figure,
    (valScan (some f) rest).isSome = true := by
  induction rest with
  | nil => intro f; rfl
  | cons b rest ih =>
    intro f
    obtain ⟨agg, hagg⟩ := Option.isSome_iff_exists.mp (ih f)
    simp [valScan, hagg]

/-- C5: with drop-last batching, 17 samples at batch size 5 yield exactly 3
full batches of 5 (the trailing 2 samples are discarded), and the epoch
accuracy denominators of lines 272 and 316 are `batch_size * num_batches
= 15`, never 17; in general the loaders yield `n / b` full batches of size
`b` and the epoch accuracy is the correct-count divided by
`b * (n / b)`. -/
theorem drop_last_batching (samples : List ℕ) (b m mv : ℕ) (hb : 0 < b) :
    (dropLastBatches samples b).length = numBatches samples.length b
    ∧ (∀ c ∈ dropLastBatches samples b, c.length = b)
    ∧ b * numBatches samples.length b + samples.length % b = samples.length
    ∧ (numBatches 17 5 = 3 ∧ 5 * numBatches 17 5 = 15 ∧ 17 % 5 = 2
        ∧ 5 * numBatches 17 5 ≠ 17)
    ∧ train_acc m 5 (numBatches 17 5) = (m : ℚ) / 15
    ∧ val_acc mv 5 (numBatches 17 5) = (mv : ℚ) / 15
    ∧ (∀ bts : List Batch, bts.length = 3 →
        (train_metrics 5 bts).2.1 = ((bts.map accItem).sum : ℚ) / 15) := by
  refine ⟨by simp [dropLastBatches, numBatches], ?_, Nat.div_add_mod _ _, by decide,
    by norm_num [train_acc, numBatches], by norm_num [val_acc, numBatches], ?_⟩
  · intro c hc
    simp only [dropLastBatches, List.mem_map, List.mem_range] at hc
    obtain ⟨k, hk, rfl⟩ := hc
    have h1 : (k + 1) * b ≤ samples.length := (Nat.le_div_iff_mul_le hb).mp hk
    have h2 : k * b + b ≤ samples.length := by
      calc k * b + b = (k + 1) * b := by ring
        _ ≤ samples.length := h1
    simp only [List.length_take, List.length_drop]
    omega
  · intro bts h
    norm_num [train_metrics, train_acc, h]

/-- Witness for C5 at the spec's 17-sample, batch-size-5 instance. -/
theorem drop_last_batching_witness :
    0 < 5 ∧ (dropLastBatches (List.range 17) 5).length = numBatches (List.range 17).length 5 :=
  ⟨by decide, (drop_last_batching (List.range 17) 5 0 0 (by decide)).1⟩

/-- C9: the validator invokes `grid_image` with `n=16` on the first
validation batch (line 312), and drop-last makes every validation batch
carry exactly `valid_batch_size` inputs; hence any run with
`valid_batch_size < 16` fails the `assert n <= batch_size` of line 42 and
the validation epoch aborts, while `valid_batch_size >= 16` makes the
assertion pass and the epoch's metrics are produced. -/
theorem grid_assert_gate (batches : List Batch) (vbs : ℕ)
    (hne : batches ≠ [])
    (hsize : ∀ b ∈ batches, b.inputs.length = vbs) :
    (vbs < 16 → val_metrics vbs batches = none)
    ∧ (16 ≤ vbs → (val_metrics vbs batches).isSome = true) := by
  obtain ⟨b0, rest, rfl⟩ : ∃ b0 rest, batches = b0 :: rest := by
    cases batches with
    | nil => exact absurd rfl hne
    | cons x xs => exact ⟨x, xs, rfl⟩
  have hb0 : b0.inputs.length = vbs := hsize b0 (List.mem_cons_self b0 rest)
  constructor
  · intro hlt
    have hnot : ¬ (16 ≤ b0.inputs.length) := by omega
    have hg : grid_image b0.inputs b0.labels b0.preds 16 = none := by
      simp [grid_image, hnot]
    simp [val_metrics, valScan, hg]
  · intro hge
    have hyes : 16 ≤ b0.inputs.length := by omega
    have hg : grid_image b0.inputs b0.labels b0.preds 16 = some ⟨List.range 16⟩ := by
      simp [grid_image, hyes]
    obtain ⟨agg, hagg⟩ :=
      Option.isSome_iff_exists.mp (valScan_some_isSome rest ⟨List.range 16⟩)
    simp [val_metrics, valScan, hg, hagg]

/-- A validation batch of exactly 16 samples. -/
def w9Batch : Batch := ⟨List.replicate 16 0, List.replicate 16 0, List.replicate 16 0, 0⟩

/-- Witness for C9: with `valid_batch_size = 16` the validation epoch's
metrics are produced. -/
theorem grid_assert_gate_witness : (val_metrics 16 [w9Batch]).isSome = true :=
  (grid_assert_gate [w9Batch] 16 (List.cons_ne_nil _ _)
    (fun b hb => by rw [List.mem_singleton] at hb; rw [hb]; rfl)).2 (by decide)

/-- A validation batch of exactly 8 samples. -/
def c7Batch : Batch := ⟨List.replicate 8 0, List.replicate 8 0, List.replicate 8 0, 0⟩

/-- C7 is false of the code (code bug): the visualization step is computed
inline inside the metric loop (lines 308-313), so its failure aborts the
epoch before any metric is finalized.  Concretely, on a validation epoch
whose batches carry 8 inputs each (`valid_batch_size = 8 < 16`), the
`assert n <= batch_size` of `grid_image` fails on the first batch and no
`(val_loss, val_acc, val_f1)` is produced, contradicting the spec's
"metric results are finalized regardless of whether the visualization step
succeeds". -/
theorem vis_failure_aborts_metrics : val_metrics 8 [c7Batch, c7Batch] = none := by
  decide

/-! ## The interval-logging metric window (C6)

Lines 240-269: the train loop accumulates `temp_loss_value`/`temp_matches`
per batch, and when `(idx + 1) % args.log_interval == 0` it logs the window
means at step `epoch * len(train_loaders[i]) + idx` and resets the sums. -/

/-- The train-loop window fold of lines 240-269, restricted to the data the
flush consumes.  Arguments: log interval `N`, batch size `bs`, step base
`base = epoch * batches_per_epoch`, current batch index `idx`, running
window sums `tL = temp_loss_value` and `tM = temp_matches`, remaining
batches.  Returns the final `(idx, tL, tM)` state and the list of flushed
records `(step, mean loss, mean accuracy)` exactly as handed to
`logger.add_scalar` (lines 261-269). -/
def flushRun (N bs base : ℕ) : ℕ → ℚ → ℚ → List Batch → (ℕ × ℚ × ℚ) × List (ℕ × ℚ × ℚ)
  | idx, tL, tM, [] => ((idx, tL, tM), [])
  | idx, tL, tM, b :: rest =>
    if (idx + 1) % N = 0 then
      ((flushRun N bs base (idx + 1) 0 0 rest).1,
        (base + idx, (tL + b.loss) / (N : ℚ),
          (tM + (accItem b : ℚ)) / (bs : ℚ) / (N : ℚ))
          :: (flushRun N bs base (idx + 1) 0 0 rest).2)
    else
      flushRun N bs base (idx + 1) (tL + b.loss) (tM + (accItem b : ℚ)) rest

/-- The `k`-th window of `N` consecutive batches. -/
def windowBatches (batches : List Batch) (N k : ℕ) : List Batch :=
  (batches.drop (k * N)).take N

/-- What the spec says the flushes of one epoch are: one record per full
window of `N` batches, tagged `base + (k*N + (N-1))` (i.e.
`epoch * batches_per_epoch + batch_index` at the window's last batch), whose
values are the window's mean loss and mean accuracy. -/
def specFlushes (N bs base : ℕ) (batches : List Batch) : List (ℕ × ℚ × ℚ) :=
  (List.range (batches.length / N)).map fun k =>
    (base + (k * N + (N - 1)),
     ((windowBatches batches N k).map Batch.loss).sum / (N : ℚ),
     ((windowBatches batches N k).map (fun b => (accItem b : ℚ))).sum / (bs : ℚ) / (N : ℚ))

/-- All flush records of one slot across a whole run of `E` epochs, each
epoch `e` running its batch list `eb e` with step base `e * B`. -/
def runFlushes (N bs B E : ℕ) (eb : ℕ → List Batch) : List (ℕ × ℚ × ℚ) :=
  (List.range E).flatMap fun e => (flushRun N bs (e * B) 0 0 0 (eb e)).2

lemma flushRun_append (N bs base : ℕ) (L1 : List Batch) :
    ∀ (L2 : List Batch) (idx : ℕ) (tL tM : ℚ),
    flushRun N bs base idx tL tM (L1 ++ L2) =
      ((flushRun N bs base (flushRun N bs base idx tL tM L1).1.1
          (flushRun N bs base idx tL tM L1).1.2.1
          (flushRun N bs base idx tL tM L1).1.2.2 L2).1,
       (flushRun N bs base idx tL tM L1).2 ++
         (flushRun N bs base (flushRun N bs base idx tL tM L1).1.1
            (flushRun N bs base idx tL tM L1).1.2.1
            (flushRun N bs base idx tL tM L1).1.2.2 L2).2) := by
  induction L1 with
  | nil => intro L2 idx tL tM; simp [flushRun]
  | cons b L1 ih =>
    intro L2 idx tL tM
    by_cases h : (idx + 1) % N = 0
    · simp [flushRun, h, ih]
    · simp [flushRun, h, ih]

lemma flushRun_noflush (N bs base : ℕ) (L : List Batch) :
    ∀ (idx : ℕ) (tL tM : ℚ),
    (∀ j < L.length, (idx + j + 1) % N ≠ 0) →
    flushRun N bs base idx tL tM L =
      ((idx + L.length, tL + (L.map Batch.loss).sum,
        tM + (L.map (fun b => (accItem b : ℚ))).sum), []) := by
  induction L with
  | nil => intro idx tL tM _; simp [flushRun]
  | cons b L ih =>
    intro idx tL tM h
    have h0 : (idx + 1) % N ≠ 0 := by
      have := h 0 (by simp)
      simpa using this
    have hrest : ∀ j < L.length, (idx + 1 + j + 1) % N ≠ 0 := by
      intro j hj
      have heq : idx + 1 + j + 1 = idx + (j + 1) + 1 := by omega
      rw [heq]
      exact h (j + 1) (by simpa using Nat.succ_lt_succ hj)
    simp only [flushRun]
    rw [if_neg h0, ih (idx + 1) _ _ hrest]
    have e1 : idx + 1 + L.length = idx + (b :: L).length := by
      simp only [List.length_cons]
      omega
    have e2 : tL + b.loss + (L.map Batch.loss).sum = tL + ((b :: L).map Batch.loss).sum := by
      simp only [List.map_cons, List.sum_cons]
      ring
    have e3 : tM + (accItem b : ℚ) + (L.map (fun b => (accItem b : ℚ))).sum
        = tM + ((b :: L).map (fun b => (accItem b : ℚ))).sum := by
      simp only [List.map_cons, List.sum_cons]
      ring
    rw [e1, e2, e3]

lemma flushRun_block (N bs base : ℕ) (hN : 0 < N) (L : List Batch) (hlen : L.length = N)
    (idx : ℕ) (hidx : idx % N = 0) :
    flushRun N bs base idx 0 0 L =
      ((idx + N, 0, 0),
       [(base + (idx + (N - 1)),
         (L.map Batch.loss).sum / (N : ℚ),
         (L.map (fun b => (accItem b : ℚ))).sum / (bs : ℚ) / (N : ℚ))]) := by
  obtain ⟨F, lb, rfl⟩ : ∃ F lb, L = F ++ [lb] := by
    rcases List.eq_nil_or_concat L with h | ⟨F, lb, h⟩
    · rw [h] at hlen; simp at hlen; omega
    · exact ⟨F, lb, by rw [h, List.concat_eq_append]⟩
  have hF : F.length = N - 1 := by
    simp only [List.length_append, List.length_cons, List.length_nil] at hlen
    omega
  obtain ⟨q, hq⟩ := Nat.dvd_of_mod_eq_zero hidx
  have hnf : flushRun N bs base idx 0 0 F =
      ((idx + F.length, 0 + (F.map Batch.loss).sum,
        0 + (F.map (fun b => (accItem b : ℚ))).sum), []) := by
    apply flushRun_noflush
    intro j hj
    subst hq
    rw [Nat.add_assoc, Nat.mul_add_mod, Nat.mod_eq_of_lt (by omega)]
    omega
  rw [flushRun_append, hnf]
  dsimp only
  have hmod : (idx + F.length + 1) % N = 0 := by
    have heq : idx + F.length + 1 = idx + N := by omega
    rw [heq, Nat.add_mod_right]
    exact hidx
  simp only [flushRun]
  rw [if_pos hmod]
  have hsum1 : ((F ++ [lb]).map Batch.loss).sum = (F.map Batch.loss).sum + lb.loss := by
    simp
  have hsum2 : ((F ++ [lb]).map (fun b => (accItem b : ℚ))).sum
      = (F.map (fun b => (accItem b : ℚ))).sum + (accItem lb : ℚ) := by
    simp
  rw [hsum1, hsum2]
  have hidx1 : idx + F.length + 1 = idx + N := by omega
  have hidx2 : idx + F.length = idx + (N - 1) := by omega
  rw [hidx1, hidx2]
  simp [zero_add]

lemma flushRun_spec (N bs base : ℕ) (hN : 0 < N) :
    ∀ (n : ℕ) (L : List Batch) (q : ℕ), L.length = n →
    (flushRun N bs base (N * q) 0 0 L).2 =
      (List.range (L.length / N)).map (fun k =>
        (base + (N * q + (k * N + (N - 1))),
         ((windowBatches L N k).map Batch.loss).sum / (N : ℚ),
         ((windowBatches L N k).map (fun b => (accItem b : ℚ))).sum / (bs : ℚ) / (N : ℚ))) := by
  intro n
  induction n using Nat.strong_induction_on with
  | _ n ih =>
    intro L q hLn
    by_cases hlt : L.length < N
    · rw [flushRun_noflush N bs base L _ _ _ ?_]
      · simp [Nat.div_eq_of_lt hlt]
      · intro j hj
        rw [Nat.add_assoc, Nat.mul_add_mod, Nat.mod_eq_of_lt (by omega)]
        omega
    · push_neg at hlt
      have happ := flushRun_append N bs base (L.take N) (L.drop N) (N * q) 0 0
      rw [List.take_append_drop] at happ
      have htk : (L.take N).length = N := by
        simp only [List.length_take]
        omega
      have hblock := flushRun_block N bs base hN (L.take N) htk (N * q) (Nat.mul_mod_right N q)
      rw [happ, hblock]
      dsimp only
      have hstate : N * q + N = N * (q + 1) := by ring
      have hdl : (L.drop N).length = L.length - N := by simp
      have hrec := ih (L.length - N) (by omega) (L.drop N) (q + 1) hdl
      rw [hstate, hrec, hdl]
      have hdiv : L.length / N = (L.length - N) / N + 1 := Nat.div_eq_sub_div hN hlt
      rw [hdiv, List.range_succ_eq_map, List.map_cons, List.map_map]
      simp only [List.singleton_append]
      congr 1
      · simp only [Nat.zero_mul, Nat.zero_add, windowBatches, List.drop_zero]
      · apply List.map_congr_left
        intro k _
        simp only [Function.comp_apply]
        have hw : windowBatches (L.drop N) N k = windowBatches L N (k + 1) := by
          simp only [windowBatches, List.drop_drop]
          congr 2
          ring
        have hkstep : N * (q + 1) + (k * N + (N - 1)) = N * q + ((k + 1) * N + (N - 1)) := by
          ring_nf
        rw [hw, hkstep]

lemma pairwise_lt_flatMap_range (E : ℕ) (f : ℕ → List ℕ)
    (hin : ∀ e, List.Pairwise (fun a b => a < b) (f e))
    (hcross : ∀ e1 e2, e1 < e2 → ∀ x ∈ f e1, ∀ y ∈ f e2, x < y) :
    List.Pairwise (fun a b => a < b) ((List.range E).flatMap f) := by
  induction E with
  | zero => simp
  | succ E ih =>
    rw [List.range_succ, List.flatMap_append, List.pairwise_append]
    refine ⟨ih, ?_, ?_⟩
    · simp only [List.flatMap_cons, List.flatMap_nil, List.append_nil]
      exact hin E
    · intro x hx y hy
      simp only [List.flatMap_cons, List.flatMap_nil, List.append_nil] at hy
      obtain ⟨e, he, hxe⟩ := List.mem_flatMap.mp hx
      rw [List.mem_range] at he
      exact hcross e E he x hxe y hy

/-- C6: during a slot's training epochs, the window fold of lines 240-269
flushes the logging sink exactly once per `N = log_interval` consecutive
batches, each flush carrying the window's mean loss (summed window loss
`/ N`), its mean accuracy (summed window correct-count `/ batch_size / N`),
and the step tag `epoch * batches_per_epoch + batch_index` of the window's
last batch; the window sums restart at zero after each flush (each window's
sums range over exactly its own `N` batches), and across the whole run the
step tags are strictly increasing. -/
theorem metric_window_flush (N bs B E : ℕ) (hN : 0 < N) (eb : ℕ → List Batch)
    (hB : ∀ e, (eb e).length = B) :
    (∀ e, (flushRun N bs (e * B) 0 0 0 (eb e)).2 = specFlushes N bs (e * B) (eb e))
    ∧ List.Pairwise (fun x y => x < y) ((runFlushes N bs B E eb).map (fun x => x.1)) := by
  have hspec : ∀ (base : ℕ) (L : List Batch),
      (flushRun N bs base 0 0 0 L).2 = specFlushes N bs base L := by
    intro base L
    have h := flushRun_spec N bs base hN L.length L 0 rfl
    rw [Nat.mul_zero] at h
    rw [h, specFlushes]
    apply List.map_congr_left
    intro k _
    simp
  refine ⟨fun e => hspec (e * B) (eb e), ?_⟩
  have hsteps : ∀ e, ((flushRun N bs (e * B) 0 0 0 (eb e)).2).map (fun x => x.1)
      = (List.range (B / N)).map (fun k => e * B + (k * N + (N - 1))) := by
    intro e
    rw [hspec, specFlushes, List.map_map, hB e]
    apply List.map_congr_left
    intro k _
    rfl
  have hrun : (runFlushes N bs B E eb).map (fun x => x.1)
      = (List.range E).flatMap (fun e => (List.range (B / N)).map (fun k => e * B + (k * N + (N - 1)))) := by
    rw [runFlushes, List.map_flatMap]
    congr 1
    funext e
    exact hsteps e
  rw [hrun]
  apply pairwise_lt_flatMap_range
  · intro e
    rw [List.pairwise_map]
    apply (List.pairwise_lt_range _).imp
    intro a b hab
    have h1 : a * N < b * N := mul_lt_mul_of_pos_right hab hN
    have h2 : a * N + (N - 1) < b * N + (N - 1) := Nat.add_lt_add_right h1 _
    exact Nat.add_lt_add_left h2 _
  · intro e1 e2 he x hx y hy
    rw [List.mem_map] at hx hy
    obtain ⟨k1, hk1, rfl⟩ := hx
    obtain ⟨k2, hk2, rfl⟩ := hy
    rw [List.mem_range] at hk1 hk2
    have hkN : k1 * N + N ≤ B := by
      have h1 : k1 + 1 ≤ B / N := hk1
      have h2 : (k1 + 1) * N ≤ (B / N) * N := mul_le_mul_right' h1 N
      have h3 : (B / N) * N ≤ B := Nat.div_mul_le_self B N
      calc k1 * N + N = (k1 + 1) * N := by ring
        _ ≤ (B / N) * N := h2
        _ ≤ B := h3
    have hlin : ∀ Y : ℕ, Y + N ≤ B → Y + (N - 1) < B := fun Y hY => by omega
    have hxB := hlin (k1 * N) hkN
    calc e1 * B + (k1 * N + (N - 1)) < e1 * B + B := Nat.add_lt_add_left hxB _
      _ = (e1 + 1) * B := by ring
      _ ≤ e2 * B := mul_le_mul_right' (by omega) B
      _ ≤ e2 * B + (k2 * N + (N - 1)) := Nat.le_add_right _ _

/-- A training batch with one sample, used by the C6 witness. -/
def c6Batch : Batch := ⟨[0], [0], [0], 1⟩

/-- Witness for C6: log interval 2, batch size 1, a 4-batch epoch. -/
theorem metric_window_flush_witness :
    0 < 2 ∧ (flushRun 2 1 (0 * 4) 0 0 0 [c6Batch, c6Batch, c6Batch, c6Batch]).2
      = specFlushes 2 1 (0 * 4) [c6Batch, c6Batch, c6Batch, c6Batch] :=
  ⟨by decide,
    (metric_window_flush 2 1 4 1 (by decide)
      (fun _ => [c6Batch, c6Batch, c6Batch, c6Batch]) (fun _ => rfl)).1 0⟩

/-! ## `increment_path` (lines 72-87, C8)

`increment_path` is modelled over a flat filesystem: `dirs` is the list of
existing sibling names.  The run-name has no parent components and no
extension, so `Path(path).stem` is `path` itself, `path.exists()` is
membership in `dirs`, and `glob(f"{path}*")` is the subset of `dirs`
extending `path` (`*` does not cross a path separator, and sibling names
contain none). -/

/-- The value of the maximal leading digit run of a character list,
Horner-accumulated onto `acc`: the semantics of the matched group of the
regex digit run followed by `int(...)` (line 85). -/
def readDigits : List Char → ℕ → ℕ
  | [], acc => acc
  | c :: cs, acc => if c.isDigit then readDigits cs (acc * 10 + (c.toNat - 48)) else acc

/-- Decimal rendering of a positive `n` (most significant digit first) with
explicit fuel (`natCharsAux n n` is the rendering; the fuel keeps the
recursion structural). -/
def natCharsAux : ℕ → ℕ → List Char
  | 0, _ => []
  | _ + 1, 0 => []
  | fuel + 1, n + 1 => natCharsAux fuel ((n + 1) / 10) ++ [Nat.digitChar ((n + 1) % 10)]

/-- `str(n)`: the decimal rendering interpolated by `f"{path}{n}"`. -/
def natChars (n : ℕ) : List Char :=
  if n = 0 then [Char.ofNat 48] else natCharsAux n n

/-- `re.search(stem followed by a digit run, d)` of lines 84-85: scan the
positions of `d` left to right; at the first position where `stem` occurs
immediately followed by a digit, return the value of that maximal digit
run; `none` when the pattern occurs nowhere. -/
def searchNum (stem : List Char) : List Char → Option ℕ
  | [] => none
  | c :: cs =>
    if stem.isPrefixOf (c :: cs) then
      match (c :: cs).drop stem.length with
      | d :: _ =>
        if d.isDigit then some (readDigits ((c :: cs).drop stem.length) 0)
        else searchNum stem cs
      | [] => searchNum stem cs
    else searchNum stem cs

/-- The suffix chosen at lines 83-86: every glob match is searched for the
stem followed by digits; the new suffix is `max(i) + 1` when any number was
extracted, else `2`. -/
def nextSuffix (path : List Char) (dirs : List (List Char)) : ℕ :=
  if ((dirs.filter (fun d => path.isPrefixOf d)).filterMap (fun d => searchNum path d)).isEmpty
  then 2
  else ((dirs.filter (fun d => path.isPrefixOf d)).filterMap (fun d => searchNum path d)).foldl max 0 + 1

/-- `increment_path` (lines 72-87): the path itself when it does not exist
or `exist_ok` is set, otherwise the path with the auto-incremented numeric
suffix appended. -/
def increment_path (path : List Char) (exist_ok : Bool) (dirs : List (List Char)) : List Char :=
  if (path ∈ dirs ∧ exist_ok = true) ∨ path ∉ dirs then path
  else path ++ natChars (nextSuffix path dirs)

/-- A directory name of the form `stem` followed by one or more digits. -/
def numberedSibling (stem d : List Char) : Bool :=
  stem.isPrefixOf d && !(d.drop stem.length).isEmpty && (d.drop stem.length).all Char.isDigit

lemma digitChar_isDigit {d : ℕ} (h : d < 10) : (Nat.digitChar d).isDigit = true := by
  interval_cases d <;> decide

lemma digitChar_val {d : ℕ} (h : d < 10) : (Nat.digitChar d).toNat - 48 = d := by
  interval_cases d <;> decide

lemma natCharsAux_zero (fuel : ℕ) : natCharsAux fuel 0 = [] := by
  cases fuel <;> rfl

lemma natCharsAux_digits (fuel : ℕ) :
    ∀ n, n ≤ fuel → ∀ c ∈ natCharsAux fuel n, c.isDigit = true := by
  induction fuel with
  | zero => intro n hn c hc; simp [natCharsAux] at hc
  | succ fuel ih =>
    intro n hn c hc
    cases n with
    | zero => simp [natCharsAux] at hc
    | succ m =>
      simp only [natCharsAux, List.mem_append, List.mem_singleton] at hc
      rcases hc with h1 | h2
      · refine ih ((m + 1) / 10) ?_ c h1
        have := Nat.div_lt_self (Nat.succ_pos m) (by norm_num : 1 < 10)
        omega
      · rw [h2]
        exact digitChar_isDigit (Nat.mod_lt _ (by norm_num))

lemma readDigits_append (A : List Char) :
    ∀ (B2 : List Char) (acc : ℕ), (∀ c ∈ A, c.isDigit = true) →
    readDigits (A ++ B2) acc = readDigits B2 (readDigits A acc) := by
  induction A with
  | nil => intro B2 acc _; rfl
  | cons c A ih =>
    intro B2 acc h
    have hc : c.isDigit = true := h c (List.mem_cons_self _ _)
    rw [List.cons_append]
    simp only [readDigits]
    rw [if_pos hc, if_pos hc]
    exact ih B2 _ (fun x hx => h x (List.mem_cons_of_mem _ hx))

lemma natCharsAux_val (fuel : ℕ) :
    ∀ n, 0 < n → n ≤ fuel → readDigits (natCharsAux fuel n) 0 = n := by
  induction fuel with
  | zero => intro n h0 h1; omega
  | succ fuel ih =>
    intro n h0 h1
    cases n with
    | zero => omega
    | succ m =>
      simp only [natCharsAux]
      have hdigits : ∀ c ∈ natCharsAux fuel ((m + 1) / 10), c.isDigit = true := by
        apply natCharsAux_digits
        have : (m + 1) / 10 < m + 1 := Nat.div_lt_self (Nat.succ_pos m) (by norm_num)
        omega
      rw [readDigits_append _ _ _ hdigits]
      have hr10 : (m + 1) % 10 < 10 := Nat.mod_lt _ (by norm_num)
      by_cases hq0 : (m + 1) / 10 = 0
      · rw [hq0, natCharsAux_zero]
        simp only [readDigits]
        rw [if_pos (digitChar_isDigit hr10), digitChar_val hr10]
        have := Nat.div_add_mod (m + 1) 10
        omega
      · have hqfuel : (m + 1) / 10 ≤ fuel := by
          have : (m + 1) / 10 < m + 1 := Nat.div_lt_self (Nat.succ_pos m) (by norm_num)
          omega
        rw [ih ((m + 1) / 10) (Nat.pos_of_ne_zero hq0) hqfuel]
        simp only [readDigits]
        rw [if_pos (digitChar_isDigit hr10), digitChar_val hr10]
        have := Nat.div_add_mod (m + 1) 10
        omega

lemma natChars_ne_nil (n : ℕ) : natChars n ≠ [] := by
  by_cases h : n = 0
  · simp [natChars, h]
  · rw [natChars, if_neg h]
    cases n with
    | zero => exact absurd rfl h
    | succ m => simp [natCharsAux]

lemma natChars_digits (n : ℕ) : ∀ c ∈ natChars n, c.isDigit = true := by
  by_cases h : n = 0
  · intro c hc
    simp [natChars, h] at hc
    rw [hc]
    decide
  · rw [natChars, if_neg h]
    exact natCharsAux_digits n n le_rfl

lemma natChars_val (n : ℕ) : readDigits (natChars n) 0 = n := by
  by_cases h : n = 0
  · simp [natChars, h]
    decide
  · rw [natChars, if_neg h]
    exact natCharsAux_val n n (Nat.pos_of_ne_zero h) le_rfl

lemma isPrefixOf_append_self (path : List Char) :
    ∀ X, path.isPrefixOf (path ++ X) = true := by
  induction path with
  | nil => intro X; simp
  | cons c cs ih =>
    intro X
    simp only [List.cons_append, List.isPrefixOf, beq_self_eq_true, Bool.true_and]
    exact ih X

lemma searchNum_found (stem : List Char) (d : List Char) (hne : d ≠ [])
    (hpre : stem.isPrefixOf d = true)
    (c0 : Char) (cs0 : List Char) (hdrop : d.drop stem.length = c0 :: cs0)
    (hdig : c0.isDigit = true) :
    searchNum stem d = some (readDigits (d.drop stem.length) 0) := by
  cases d with
  | nil => exact absurd rfl hne
  | cons x xs =>
    simp only [searchNum]
    rw [if_pos hpre, hdrop]
    simp only []
    rw [if_pos hdig]

lemma searchNum_self_num (path : List Char) (k : ℕ) :
    searchNum path (path ++ natChars k) = some k := by
  obtain ⟨c0, cs0, hk⟩ : ∃ c0 cs0, natChars k = c0 :: cs0 := by
    cases hnc : natChars k with
    | nil => exact absurd hnc (natChars_ne_nil k)
    | cons a l => exact ⟨a, l, rfl⟩
  have hd : (path ++ natChars k).drop path.length = natChars k := List.drop_left path _
  have hne : path ++ natChars k ≠ [] := by
    intro habs
    rcases List.append_eq_nil.mp habs with ⟨_, h2⟩
    exact natChars_ne_nil k h2
  have hdig : c0.isDigit = true :=
    natChars_digits k c0 (by rw [hk]; exact List.mem_cons_self _ _)
  rw [searchNum_found path _ hne (isPrefixOf_append_self path _) c0 cs0 (by rw [hd, hk]) hdig,
    hd, natChars_val]

lemma foldl_max_le_init (l : List ℕ) : ∀ a, a ≤ l.foldl max a := by
  induction l with
  | nil => intro a; simp
  | cons x l ih =>
    intro a
    simp only [List.foldl_cons]
    exact le_trans (le_max_left a x) (ih (max a x))

lemma mem_le_foldl_max (l : List ℕ) : ∀ a, ∀ x ∈ l, x ≤ l.foldl max a := by
  induction l with
  | nil => intro a x hx; simp at hx
  | cons y l ih =>
    intro a x hx
    rcases List.mem_cons.mp hx with h | h
    · rw [h]
      simp only [List.foldl_cons]
      exact le_trans (le_max_right a y) (foldl_max_le_init l (max a y))
    · simp only [List.foldl_cons]
      exact ih (max a y) x h

/-- C8 (amended): `increment_path` returns the path unchanged when no
directory of that name exists or when `exist_ok` is set; otherwise it
returns the base name with the numeric suffix `nextSuffix`, which is
strictly greater than the number of every numbered sibling
(`path ++ digits-of-k` existing in `dirs` forces `k < nextSuffix`); and
when no glob-matching sibling contains the base name immediately followed
by a digit (in particular, when no numbered sibling exists in that stronger
sense), the suffix is `2`. -/
theorem increment_path_spec (path : List Char) (dirs : List (List Char)) (exist_ok : Bool) :
    ((exist_ok = true ∨ path ∉ dirs) → increment_path path exist_ok dirs = path)
    ∧ (path ∈ dirs → exist_ok = false →
        increment_path path exist_ok dirs = path ++ natChars (nextSuffix path dirs)
        ∧ (∀ k : ℕ, (path ++ natChars k) ∈ dirs → k < nextSuffix path dirs)
        ∧ ((∀ d ∈ dirs, path.isPrefixOf d = true → searchNum path d = none) →
            nextSuffix path dirs = 2)) := by
  constructor
  · intro h
    rcases h with h | h
    · by_cases hc : path ∈ dirs <;> simp [increment_path, h, hc]
    · simp [increment_path, h]
  · intro hmem hok
    have hcond : ¬((path ∈ dirs ∧ exist_ok = true) ∨ path ∉ dirs) := by
      rw [hok]
      simp [hmem]
    refine ⟨by rw [increment_path, if_neg hcond], ?_, ?_⟩
    · intro k hk
      have hmemf : (path ++ natChars k) ∈ dirs.filter (fun d => path.isPrefixOf d) :=
        List.mem_filter.mpr ⟨hk, isPrefixOf_append_self path _⟩
      have hmemi : k ∈ (dirs.filter (fun d => path.isPrefixOf d)).filterMap
          (fun d => searchNum path d) :=
        List.mem_filterMap.mpr ⟨path ++ natChars k, hmemf, searchNum_self_num path k⟩
      have hne : ¬(((dirs.filter (fun d => path.isPrefixOf d)).filterMap
          (fun d => searchNum path d)).isEmpty = true) := by
        rw [List.isEmpty_iff]
        exact List.ne_nil_of_mem hmemi
      rw [nextSuffix, if_neg hne]
      have := mem_le_foldl_max _ 0 k hmemi
      omega
    · intro hnone
      have hi : (dirs.filter (fun d => path.isPrefixOf d)).filterMap
          (fun d => searchNum path d) = [] := by
        rw [List.filterMap_eq_nil_iff]
        intro d hd
        have hdm := List.mem_filter.mp hd
        exact hnone d hdm.1 hdm.2
      rw [nextSuffix, hi]
      rfl

/-- The base run name `exp`. -/
def expChars : List Char := ['e', 'x', 'p']

/-- The sibling name `exp2foo`: it matches the glob `exp*` and contains
`exp` followed by a digit, but it is not of the form `exp` followed by
digits only. -/
def expTwoFoo : List Char := ['e', 'x', 'p', '2', 'f', 'o', 'o']

/-- C8 counterexample: with existing directories `exp` and `exp2foo` there
is no numbered sibling (no directory is the base name followed by digits
only), yet `increment_path` returns `exp3`, not the `exp2` the claim
requires: the regex search extracts `2` out of `exp2foo`. -/
theorem increment_path_counterexample :
    increment_path expChars false [expChars, expTwoFoo] = expChars ++ natChars 3
    ∧ ([expChars, expTwoFoo].all (fun d => !(numberedSibling expChars d))) = true
    ∧ expChars ++ natChars 3 ≠ expChars ++ natChars 2 := by
  refine ⟨by decide, by decide, by decide⟩

/-- Witness for C8: with only the base directory existing, the returned
path carries suffix 2. -/
theorem increment_path_spec_witness :
    increment_path expChars false [expChars]
      = expChars ++ natChars (nextSuffix expChars [expChars])
    ∧ nextSuffix expChars [expChars] = 2 :=
  ⟨((increment_path_spec expChars [expChars] false).2 (by decide) rfl).1,
   ((increment_path_spec expChars [expChars] false).2 (by decide) rfl).2.2 (by decide)⟩
